import Mathlib

/-!
Verification of the Actions deferred-callback scheduler (Actions.h /
Actions.cpp): a fixed-capacity circular queue of timed callables with a
poll-style dispatch loop.  The definitions below are a shallow embedding of
the C++ source; machine `unsigned long` arithmetic is modelled as `Nat`
reduced mod `2 ^ 32`, C++ `int` indices as `Int`, and pointers as `Option`.
-/

set_option maxHeartbeats 1000000

namespace Sched

/-- The modulus of the Arduino `unsigned long` type (32 bits): clock
readings and delays are values of this type. -/
def U : Nat := 4294967296

/-- Unsigned 32-bit subtraction `x - y` on `unsigned long` values:
modular at width 32. -/
def usub (x y : Nat) : Nat := (x % U + (U - y % U)) % U

/-- An observable invocation of a stored callable: a free function
(identified by its address) or a bound instance method. -/
inductive CallEvent where
  | function (f : Nat)
  | method (inst m : Nat)
deriving DecidableEq

/-- The `Callback` class: a nullable function pointer plus a nullable
instance/method pointer pair; addresses are modelled as `Nat`. -/
structure Callback where
  functionCallback : Option Nat := none
  methodInstance : Option Nat := none
  methodCallback : Option Nat := none
deriving DecidableEq

/-- `Callback::call()`: invoke the function if its pointer is non-null, else
the bound method if both of its pointers are non-null, else do nothing.
Returns the list of invocations performed. -/
def Callback.call (cb : Callback) : List CallEvent :=
  match cb.functionCallback with
  | some f => [CallEvent.function f]
  | none =>
    match cb.methodInstance, cb.methodCallback with
    | some i, some m => [CallEvent.method i m]
    | _, _ => []

/-- `Callback(FunctionCallback)`: a callback wrapping a free function. -/
def Callback.ofFunction (f : Nat) : Callback := { functionCallback := some f }

/-- The `Action` class: a stored callable, the clock-resolution flag, the
registration timestamp and the delay (both `unsigned long`).  The default
values model `Action()`, which initialises only the callback; the other
members stay uninitialised and are never read before being overwritten. -/
structure Action where
  callback : Callback := {}
  useMicros : Bool := false
  created : Nat := 0
  delay : Nat := 0
deriving DecidableEq

/-- The `Action(Callback, unsigned long, bool)` constructor: stores the
callback and delay and captures the current reading of the selected clock
(`micros()` when `useMicros`, else `millis()`) as `created`.  `ms` and `us`
are the clock readings, reduced to the width of `unsigned long`. -/
def Action.create (cb : Callback) (delay : Nat) (useMicros : Bool) (ms us : Nat) : Action :=
  { callback := cb
  , useMicros := useMicros
  , created := (if useMicros then us else ms) % U
  , delay := delay % U }

/-- The clock reading `Actions::loop` takes for an action:
`action.useMicros ? micros() : millis()`. -/
def Action.clockNow (act : Action) (ms us : Nat) : Nat :=
  if act.useMicros then us else ms

/-- The due test of `Actions::loop`: `now - action.created > action.delay`
on `unsigned long` values (modular subtraction, strict greater-than). -/
def dueTest (now : Nat) (act : Action) : Bool :=
  decide (usub now act.created > act.delay)

/-- A re-entrant schedule request: the arguments of a `runLater` call that a
callback performs while it is being invoked from inside `loop()`. -/
structure SchedReq where
  callback : Callback
  delay : Nat
  useMicros : Bool
deriving DecidableEq

/-- The `Actions` class state: the backing array (a total map from slot
index), its size `queueSize`, the `head` and `tail` indices (C++ `int`,
modelled as `Int`), and the `overflowCallback` pointer (`some` means the
pointer is non-null and holds the given pointee). -/
structure Actions where
  queue : Int → Action
  queueSize : Int
  head : Int
  tail : Int
  overflowCallback : Option Callback

/-- The `Actions::Actions(int size)` constructor.  The `size < 0` branch
stores 0 into `queueSize`, but that store is dead: it is overwritten by
`queueSize = size` after `size += 1`.  The final state always has
`queueSize = size + 1`, `head = tail = 0` and a null overflow pointer, with
default-constructed `Action()` values in the backing slots. -/
def Actions.construct (size : Int) : Actions :=
  { queue := fun _ => {}
  , queueSize := size + 1
  , head := 0
  , tail := 0
  , overflowCallback := none }

/-- `Actions::nextSlot(int)`: the index one past `currentSlot`, wrapping
from the last slot back to 0. -/
def Actions.nextSlot (a : Actions) (currentSlot : Int) : Int :=
  if currentSlot = a.queueSize - 1 then 0 else currentSlot + 1

/-- `Actions::getSize()`: the number of stored actions, computed from the
head and tail indices (`QUEUE_IS_EMPTY` abbreviates `tail == head`). -/
def Actions.getSize (a : Actions) : Int :=
  if a.head > a.tail then a.head - a.tail
  else if ¬ (a.tail = a.head) then a.queueSize - (a.tail - a.head)
  else 0

/-- `Actions::isFull()`. -/
def Actions.isFull (a : Actions) : Bool :=
  if a.queueSize ≤ 1 then true
  else if a.head = a.queueSize - 1 then decide (a.tail = 0)
  else decide (a.tail = a.head + 1)

/-- `Actions::runLater(Action)`: when the queue is not full, copy the action
into `queue[head]`, advance `head` and return true; otherwise call the
overflow callback through the pointer when it is non-null and return false.
Returns the new state, the boolean result, and the overflow-handler
invocations performed. -/
def Actions.runLater (a : Actions) (action : Action) : Actions × Bool × List CallEvent :=
  if ¬ a.isFull then
    ({ a with queue := Function.update a.queue a.head action
            , head := a.nextSlot a.head }, true, [])
  else
    match a.overflowCallback with
    | some cb => (a, false, cb.call)
    | none => (a, false, [])

/-- `Actions::remove(Action&)`: when the queue is non-empty, copy
`queue[tail]` into the caller's buffer, advance `tail` and return true;
otherwise leave the buffer untouched and return false. -/
def Actions.remove (a : Actions) (buf : Action) : Actions × Bool × Action :=
  if ¬ (a.tail = a.head) then
    ({ a with tail := a.nextSlot a.tail }, true, a.queue a.tail)
  else (a, false, buf)

/-- `Actions::setOverflowCallback(FunctionCallback)`: the source assigns
`*overflowCallback = Callback(functionCallback)` through the member
pointer.  The constructor sets that pointer to NULL and no statement in the
source ever reassigns the pointer itself, so when the pointer is null the
assignment dereferences NULL: modelled as `none` (undefined behaviour). -/
def Actions.setOverflowCallback (a : Actions) (f : Nat) : Option Actions :=
  match a.overflowCallback with
  | some _ => some { a with overflowCallback := some (Callback.ofFunction f) }
  | none => none

/-- The public `Actions::runLater(FunctionCallback, unsigned long, bool)`:
build an `Action` stamped with the current clock reading and enqueue it. -/
def Actions.runLaterF (a : Actions) (f : Nat) (delay : Nat) (useMicros : Bool) (ms us : Nat) :
    Actions × Bool × List CallEvent :=
  a.runLater (Action.create (Callback.ofFunction f) delay useMicros ms us)

/-- Perform a list of re-entrant `runLater` calls (as issued by a callback
running inside `loop()`), each building an `Action` stamped with the
current clocks.  Returns the final state, the boolean result of each call
in order, and the overflow-handler invocations performed. -/
def Actions.runLaterReqs (a : Actions) (reqs : List SchedReq) (ms us : Nat) :
    Actions × List Bool × List CallEvent :=
  match reqs with
  | [] => (a, [], [])
  | r :: rs =>
    let x := a.runLater (Action.create r.callback r.delay r.useMicros ms us)
    let y := x.1.runLaterReqs rs ms us
    (y.1, x.2.1 :: y.2.1, x.2.2 ++ y.2.2)

/-- The `for` loop of `Actions::loop`, with `i` the loop counter (compared
against `getSize()` before every iteration, exactly as in the source) and
`buf` the local `Action action` variable (left untouched by a failing
`remove`).  `eff` gives the re-entrant schedule requests a callback
performs while it is being invoked.  `fuel` bounds the recursion; the
driver `Actions.loop` passes one more than the initial `getSize()`, which
the source loop never exceeds because every non-dispatching iteration
removes one entry and re-inserts one entry. -/
def Actions.loopAux (eff : CallEvent → List SchedReq) (ms us : Nat) :
    Nat → Int → Actions → Action → Actions × Bool × List CallEvent
  | 0, _, a, _ => (a, false, [])
  | Nat.succ fuel, i, a, buf =>
    if i < a.getSize then
      let r := a.remove buf
      let act := r.2.2
      if dueTest (act.clockNow ms us) act then
        let evs := act.callback.call
        let y := r.1.runLaterReqs (evs.flatMap eff) ms us
        (y.1, true, evs ++ y.2.2)
      else
        Actions.loopAux eff ms us fuel (i + 1) (r.1.runLater act).1 act
    else (a, false, [])

/-- `Actions::loop()`: walk the queue at most `getSize()` times, removing
each entry in FIFO order, dispatching the first due one and re-inserting
the rest.  The source declares `loop()` as `void`; the repository README
and the spec document a boolean return, true when an action was called.
Modelled from the spec: the `Bool` component of the result is that
documented return value, true exactly when the dispatch branch ran. -/
def Actions.loop (a : Actions) (eff : CallEvent → List SchedReq) (ms us : Nat) :
    Actions × Bool × List CallEvent :=
  Actions.loopAux eff ms us (a.getSize.toNat + 1) 0 a {}

/-- The stored actions in FIFO order (oldest first): the contents of slots
`(tail + j) % queueSize` for `j < getSize()`.  This is the abstraction
function relating the ring buffer to the list of pending tasks. -/
def Actions.pending (a : Actions) : List Action :=
  List.map (fun j : Nat => a.queue ((a.tail + (j : Int)) % a.queueSize))
    (List.range a.getSize.toNat)

/-- Well-formedness of an `Actions` state: at least one backing slot, and
the head and tail indices inside the backing array. -/
structure Actions.WF (a : Actions) : Prop where
  qpos : 1 ≤ a.queueSize
  head_nonneg : 0 ≤ a.head
  head_lt : a.head < a.queueSize
  tail_nonneg : 0 ≤ a.tail
  tail_lt : a.tail < a.queueSize

/-- States reachable from a given state through the operations of the
class.  The `setOverflow` step applies only when `setOverflowCallback`
completes (its pointer write does not dereference NULL). -/
inductive Actions.Reaches : Actions → Actions → Prop
  | refl (a : Actions) : Actions.Reaches a a
  | runLater {a b : Actions} (act : Action) :
      Actions.Reaches a b → Actions.Reaches a (b.runLater act).1
  | remove {a b : Actions} (buf : Action) :
      Actions.Reaches a b → Actions.Reaches a (b.remove buf).1
  | loop {a b : Actions} (eff : CallEvent → List SchedReq) (ms us : Nat) :
      Actions.Reaches a b → Actions.Reaches a (b.loop eff ms us).1
  | setOverflow {a b c : Actions} (f : Nat) :
      Actions.Reaches a b → b.setOverflowCallback f = some c → Actions.Reaches a c

/-! Index arithmetic for the circular queue. -/

theorem emod_cancel_left {n t x y : Int} (h : (t + x) % n = (t + y) % n) :
    x % n = y % n := by
  rw [Int.emod_eq_emod_iff_emod_sub_eq_zero] at h ⊢
  have e : t + x - (t + y) = x - y := by ring
  rwa [e] at h

theorem emod_inj {n x y : Int} (hx : 0 ≤ x) (hx2 : x < n) (hy : 0 ≤ y) (hy2 : y < n)
    (h : x % n = y % n) : x = y := by
  rwa [Int.emod_eq_of_lt hx hx2, Int.emod_eq_of_lt hy hy2] at h

theorem Actions.nextSlot_eq (a : Actions) (s : Int) (h0 : 0 ≤ s) (h1 : s < a.queueSize) :
    a.nextSlot s = (s + 1) % a.queueSize := by
  unfold Actions.nextSlot
  split
  · rename_i h
    rw [h]
    have e : a.queueSize - 1 + 1 = a.queueSize := by ring
    rw [e, Int.emod_self]
  · rename_i h
    rw [Int.emod_eq_of_lt (by omega) (by omega)]

theorem Actions.nextSlot_nonneg (a : Actions) (s : Int) (h0 : 0 ≤ s) : 0 ≤ a.nextSlot s := by
  unfold Actions.nextSlot
  split <;> omega

theorem Actions.nextSlot_lt (a : Actions) (s : Int) (hq : 1 ≤ a.queueSize) (_h0 : 0 ≤ s)
    (h1 : s < a.queueSize) : a.nextSlot s < a.queueSize := by
  unfold Actions.nextSlot
  split <;> omega

theorem Actions.getSize_eq (a : Actions) (hwf : a.WF) :
    a.getSize = (a.head - a.tail) % a.queueSize := by
  obtain ⟨hq, hh0, hh1, ht0, ht1⟩ := hwf
  unfold Actions.getSize
  split
  · rw [Int.emod_eq_of_lt (by omega) (by omega)]
  · split
    · rename_i h h2
      have e1 : (a.head - a.tail + a.queueSize * 1) % a.queueSize
          = (a.head - a.tail) % a.queueSize := Int.add_mul_emod_self_left _ _ _
      have e2 : a.head - a.tail + a.queueSize * 1 = a.queueSize - (a.tail - a.head) := by ring
      rw [← e1, e2, Int.emod_eq_of_lt (by omega) (by omega)]
    · rename_i h h2
      have e : a.head = a.tail := by omega
      rw [e]
      simp

theorem Actions.getSize_nonneg (a : Actions) (hwf : a.WF) : 0 ≤ a.getSize := by
  rw [a.getSize_eq hwf]
  exact Int.emod_nonneg _ (by have := hwf.qpos; omega)

theorem Actions.getSize_lt (a : Actions) (hwf : a.WF) : a.getSize < a.queueSize := by
  rw [a.getSize_eq hwf]
  exact Int.emod_lt_of_pos _ (by have := hwf.qpos; omega)

theorem Actions.getSize_toNat (a : Actions) (hwf : a.WF) :
    ((a.getSize.toNat : Int)) = a.getSize :=
  Int.toNat_of_nonneg (a.getSize_nonneg hwf)

theorem Actions.empty_iff (a : Actions) (hwf : a.WF) :
    a.tail = a.head ↔ a.getSize = 0 := by
  rw [a.getSize_eq hwf]
  constructor
  · intro h
    rw [h]
    simp
  · intro h
    have hd : a.queueSize ∣ a.head - a.tail := Int.dvd_of_emod_eq_zero h
    have := hwf.head_nonneg
    have := hwf.head_lt
    have := hwf.tail_nonneg
    have := hwf.tail_lt
    have hz : a.head - a.tail = 0 :=
      Int.eq_zero_of_abs_lt_dvd hd (by rw [abs_lt]; omega)
    omega

theorem Actions.isFull_iff (a : Actions) (hwf : a.WF) :
    a.isFull = true ↔ a.getSize = a.queueSize - 1 := by
  have hq := hwf.qpos
  have hh0 := hwf.head_nonneg
  have hh1 := hwf.head_lt
  have ht0 := hwf.tail_nonneg
  have ht1 := hwf.tail_lt
  rw [a.getSize_eq hwf]
  unfold Actions.isFull
  split
  · rename_i h
    have e1 : a.head = a.tail := by omega
    have e2 : a.queueSize = 1 := by omega
    rw [e1, e2]
    simp
  · rename_i h
    split
    · rename_i h2
      simp only [decide_eq_true_eq]
      constructor
      · intro ht
        rw [h2, ht, Int.emod_eq_of_lt (by omega) (by omega)]
        ring_nf
      · intro hg
        by_contra htne
        rw [h2] at hg
        rw [Int.emod_eq_of_lt (by omega) (by omega)] at hg
        omega
    · rename_i h2
      simp only [decide_eq_true_eq]
      constructor
      · intro ht
        rw [ht]
        have e1 : (a.head - (a.head + 1) + a.queueSize * 1) % a.queueSize
            = (a.head - (a.head + 1)) % a.queueSize := Int.add_mul_emod_self_left _ _ _
        have e2 : a.head - (a.head + 1) + a.queueSize * 1 = a.queueSize - 1 := by ring
        rw [← e1, e2, Int.emod_eq_of_lt (by omega) (by omega)]
      · intro hg
        rcases le_or_lt a.tail a.head with hle | hlt
        · rw [Int.emod_eq_of_lt (by omega) (by omega)] at hg
          omega
        · have e1 : (a.head - a.tail + a.queueSize * 1) % a.queueSize
              = (a.head - a.tail) % a.queueSize := Int.add_mul_emod_self_left _ _ _
          rw [← e1] at hg
          rw [Int.emod_eq_of_lt (by omega) (by omega)] at hg
          omega

theorem Actions.pending_length (a : Actions) : a.pending.length = a.getSize.toNat := by
  unfold Actions.pending
  rw [List.length_map, List.length_range]

theorem emod_shift {n x g : Int} (d : Int) (h : x % n = g % n) :
    (x + d) % n = (g + d) % n := by
  rw [Int.emod_eq_emod_iff_emod_sub_eq_zero] at h ⊢
  have e : x + d - (g + d) = x - g := by ring
  rwa [e]

theorem emod_sub_left (x y n : Int) : (x % n - y) % n = (x - y) % n := by
  conv_lhs => rw [Int.sub_emod]
  rw [Int.emod_emod_of_dvd x dvd_rfl, ← Int.sub_emod]

theorem emod_sub_right (x y n : Int) : (x - y % n) % n = (x - y) % n := by
  conv_lhs => rw [Int.sub_emod]
  rw [Int.emod_emod_of_dvd y dvd_rfl, ← Int.sub_emod]

theorem emod_add_left (x y n : Int) : (x % n + y) % n = (x + y) % n :=
  Int.emod_add_emod x n y

theorem Actions.getSize_emod (a : Actions) (hwf : a.WF) :
    (a.head - a.tail) % a.queueSize = a.getSize % a.queueSize := by
  rw [Int.emod_eq_of_lt (a.getSize_nonneg hwf) (a.getSize_lt hwf)]
  exact (a.getSize_eq hwf).symm

/-- The head slot is the slot `getSize()` steps past the tail. -/
theorem Actions.head_eq_slot (a : Actions) (hwf : a.WF) :
    a.head = (a.tail + a.getSize) % a.queueSize := by
  have h := emod_shift a.tail (a.getSize_emod hwf)
  have e1 : a.head - a.tail + a.tail = a.head := by ring
  have e2 : a.getSize + a.tail = a.tail + a.getSize := by ring
  rw [e1, e2] at h
  rw [← h, Int.emod_eq_of_lt hwf.head_nonneg hwf.head_lt]

/-- Slots strictly before the head (in queue order from the tail) are not
the head slot. -/
theorem Actions.slot_ne_head (a : Actions) (hwf : a.WF) (j : Int) (hj0 : 0 ≤ j)
    (hj1 : j < a.getSize) : (a.tail + j) % a.queueSize ≠ a.head := by
  intro hcontra
  have hq := hwf.qpos
  have hg0 := a.getSize_nonneg hwf
  have hglt := a.getSize_lt hwf
  rw [a.head_eq_slot hwf] at hcontra
  have hjg : j % a.queueSize = a.getSize % a.queueSize := emod_cancel_left hcontra
  have : j = a.getSize := emod_inj hj0 (by omega) hg0 hglt hjg
  omega

/-! Behaviour of `remove` on a well-formed, non-empty state. -/

theorem Actions.remove_eq (a : Actions) (buf : Action) (hne : ¬ a.tail = a.head) :
    a.remove buf = ({ a with tail := a.nextSlot a.tail }, true, a.queue a.tail) := by
  unfold Actions.remove
  rw [if_pos hne]

theorem Actions.remove_tail_wf (a : Actions) (hwf : a.WF) :
    Actions.WF { a with tail := a.nextSlot a.tail } :=
  ⟨hwf.qpos, hwf.head_nonneg, hwf.head_lt, a.nextSlot_nonneg _ hwf.tail_nonneg,
    a.nextSlot_lt _ hwf.qpos hwf.tail_nonneg hwf.tail_lt⟩

theorem Actions.remove_tail_getSize (a : Actions) (hwf : a.WF) (hne : ¬ a.tail = a.head) :
    ({ a with tail := a.nextSlot a.tail } : Actions).getSize = a.getSize - 1 := by
  have hq := hwf.qpos
  have hgne : a.getSize ≠ 0 := fun h => hne ((a.empty_iff hwf).mpr h)
  have hg0 := a.getSize_nonneg hwf
  have hglt := a.getSize_lt hwf
  rw [Actions.getSize_eq _ (a.remove_tail_wf hwf)]
  show (a.head - a.nextSlot a.tail) % a.queueSize = a.getSize - 1
  rw [a.nextSlot_eq _ hwf.tail_nonneg hwf.tail_lt, emod_sub_right]
  have e1 : a.head - (a.tail + 1) = a.head - a.tail + (-1) := by ring
  rw [e1, emod_shift (-1) (a.getSize_emod hwf)]
  have e2 : a.getSize + (-1) = a.getSize - 1 := by ring
  rw [e2, Int.emod_eq_of_lt (by omega) (by omega)]

theorem Actions.remove_tail_pending (a : Actions) (hwf : a.WF) (hne : ¬ a.tail = a.head) :
    a.pending = a.queue a.tail :: ({ a with tail := a.nextSlot a.tail } : Actions).pending := by
  have hq := hwf.qpos
  have hgne : a.getSize ≠ 0 := fun h => hne ((a.empty_iff hwf).mpr h)
  have hg0 := a.getSize_nonneg hwf
  have hgs := a.remove_tail_getSize hwf hne
  unfold Actions.pending
  rw [hgs]
  show List.map _ (List.range a.getSize.toNat) = _
  have hg' : a.getSize.toNat = (a.getSize - 1).toNat + 1 := by omega
  rw [hg', List.range_succ_eq_map, List.map_cons, List.map_map]
  congr 1
  · show a.queue ((a.tail + ((0 : Nat) : Int)) % a.queueSize) = a.queue a.tail
    congr 1
    norm_num
    exact Int.emod_eq_of_lt hwf.tail_nonneg hwf.tail_lt
  · apply List.map_congr_left
    intro j hj
    show a.queue ((a.tail + ((Nat.succ j : Nat) : Int)) % a.queueSize)
        = a.queue ((a.nextSlot a.tail + (j : Int)) % a.queueSize)
    rw [a.nextSlot_eq _ hwf.tail_nonneg hwf.tail_lt, emod_add_left]
    congr 1
    push_cast
    ring_nf

/-! Behaviour of `runLater` on a well-formed state with room to spare. -/

theorem Actions.runLater_eq_success (a : Actions) (act : Action) (h : ¬ a.isFull = true) :
    a.runLater act
      = ({ a with queue := Function.update a.queue a.head act
                , head := a.nextSlot a.head }, true, []) := by
  unfold Actions.runLater
  rw [if_pos h]

theorem Actions.runLater_eq_full (a : Actions) (act : Action) (h : a.isFull = true)
    (hov : a.overflowCallback = none) : a.runLater act = (a, false, []) := by
  unfold Actions.runLater
  rw [if_neg (by simp [h]), hov]

theorem Actions.notFull_of_room (a : Actions) (hwf : a.WF)
    (hroom : a.getSize < a.queueSize - 1) : ¬ a.isFull = true := by
  intro h
  have := (a.isFull_iff hwf).mp h
  omega

theorem Actions.full_of_size (a : Actions) (hwf : a.WF)
    (hfull : a.getSize = a.queueSize - 1) : a.isFull = true :=
  (a.isFull_iff hwf).mpr hfull

theorem Actions.insert_head_wf (a : Actions) (act : Action) (hwf : a.WF) :
    Actions.WF { a with queue := Function.update a.queue a.head act
                      , head := a.nextSlot a.head } :=
  ⟨hwf.qpos, a.nextSlot_nonneg _ hwf.head_nonneg,
    a.nextSlot_lt _ hwf.qpos hwf.head_nonneg hwf.head_lt,
    hwf.tail_nonneg, hwf.tail_lt⟩

theorem Actions.insert_head_getSize (a : Actions) (act : Action) (hwf : a.WF)
    (hroom : a.getSize < a.queueSize - 1) :
    ({ a with queue := Function.update a.queue a.head act
            , head := a.nextSlot a.head } : Actions).getSize = a.getSize + 1 := by
  have hq := hwf.qpos
  have hg0 := a.getSize_nonneg hwf
  rw [Actions.getSize_eq _ (a.insert_head_wf act hwf)]
  show (a.nextSlot a.head - a.tail) % a.queueSize = a.getSize + 1
  rw [a.nextSlot_eq _ hwf.head_nonneg hwf.head_lt, emod_sub_left]
  have e1 : a.head + 1 - a.tail = a.head - a.tail + 1 := by ring
  rw [e1, emod_shift 1 (a.getSize_emod hwf)]
  rw [Int.emod_eq_of_lt (by omega) (by omega)]

theorem Actions.insert_head_pending (a : Actions) (act : Action) (hwf : a.WF)
    (hroom : a.getSize < a.queueSize - 1) :
    ({ a with queue := Function.update a.queue a.head act
            , head := a.nextSlot a.head } : Actions).pending = a.pending ++ [act] := by
  have hq := hwf.qpos
  have hg0 := a.getSize_nonneg hwf
  have hgs := a.insert_head_getSize act hwf hroom
  unfold Actions.pending
  rw [hgs]
  show List.map _ (List.range (a.getSize + 1).toNat) = _
  have hg' : (a.getSize + 1).toNat = a.getSize.toNat + 1 := by omega
  rw [hg', List.range_succ, List.map_append, List.map_cons]
  congr 1
  · apply List.map_congr_left
    intro j hj
    rw [List.mem_range] at hj
    have hj2 : (j : Int) < a.getSize := by omega
    show Function.update a.queue a.head act ((a.tail + (j : Int)) % a.queueSize)
        = a.queue ((a.tail + (j : Int)) % a.queueSize)
    exact Function.update_noteq (a.slot_ne_head hwf _ (by positivity) hj2) _ _
  · show [Function.update a.queue a.head act ((a.tail + ((a.getSize.toNat : Nat) : Int)) % a.queueSize)] = [act]
    have e : ((a.getSize.toNat : Nat) : Int) = a.getSize := a.getSize_toNat hwf
    rw [e, ← a.head_eq_slot hwf, Function.update_same]

/-! Preservation of the overflow pointer and of the queue size. -/

theorem Actions.runLater_preserve (a : Actions) (act : Action) :
    (a.runLater act).1.overflowCallback = a.overflowCallback ∧
    (a.runLater act).1.queueSize = a.queueSize := by
  unfold Actions.runLater
  split
  · exact ⟨rfl, rfl⟩
  · split <;> exact ⟨rfl, rfl⟩

theorem Actions.runLater_events_none (a : Actions) (act : Action)
    (hov : a.overflowCallback = none) : (a.runLater act).2.2 = [] := by
  unfold Actions.runLater
  split
  · rfl
  · split
    · simp_all
    · rfl

theorem Actions.remove_preserve (a : Actions) (buf : Action) :
    (a.remove buf).1.overflowCallback = a.overflowCallback ∧
    (a.remove buf).1.queueSize = a.queueSize ∧
    (a.remove buf).1.queue = a.queue ∧
    (a.remove buf).1.head = a.head := by
  unfold Actions.remove
  split <;> exact ⟨rfl, rfl, rfl, rfl⟩

theorem Callback.call_length (cb : Callback) : cb.call.length ≤ 1 := by
  unfold Callback.call
  split
  · simp
  · split <;> simp

/-- The action a re-entrant schedule request builds. -/
def SchedReq.toAction (r : SchedReq) (ms us : Nat) : Action :=
  Action.create r.callback r.delay r.useMicros ms us

theorem Actions.runLaterReqs_cons (a : Actions) (r : SchedReq) (rs : List SchedReq)
    (ms us : Nat) :
    a.runLaterReqs (r :: rs) ms us
      = (((a.runLater (r.toAction ms us)).1.runLaterReqs rs ms us).1,
         (a.runLater (r.toAction ms us)).2.1
           :: ((a.runLater (r.toAction ms us)).1.runLaterReqs rs ms us).2.1,
         (a.runLater (r.toAction ms us)).2.2
           ++ ((a.runLater (r.toAction ms us)).1.runLaterReqs rs ms us).2.2) := rfl

/-- Packaged behaviour of a successful `runLater` on a well-formed state
with at least one free usable slot. -/
theorem Actions.runLater_spec_success (a : Actions) (act : Action) (hwf : a.WF)
    (hroom : a.getSize < a.queueSize - 1) :
    (a.runLater act).2.1 = true ∧
    (a.runLater act).2.2 = [] ∧
    (a.runLater act).1.WF ∧
    (a.runLater act).1.getSize = a.getSize + 1 ∧
    (a.runLater act).1.pending = a.pending ++ [act] ∧
    (a.runLater act).1.queueSize = a.queueSize ∧
    (a.runLater act).1.overflowCallback = a.overflowCallback := by
  have hnf := a.notFull_of_room hwf hroom
  rw [a.runLater_eq_success act hnf]
  exact ⟨rfl, rfl, a.insert_head_wf act hwf, a.insert_head_getSize act hwf hroom,
    a.insert_head_pending act hwf hroom, rfl, rfl⟩

theorem Actions.runLaterReqs_spec (ms us : Nat) :
    ∀ (reqs : List SchedReq) (a : Actions), a.WF → a.overflowCallback = none →
    (a.runLaterReqs reqs ms us).1.WF ∧
    (a.runLaterReqs reqs ms us).1.queueSize = a.queueSize ∧
    (a.runLaterReqs reqs ms us).1.overflowCallback = none ∧
    (a.runLaterReqs reqs ms us).2.2 = [] ∧
    (a.runLaterReqs reqs ms us).1.pending
      = a.pending ++ (reqs.take (a.queueSize - 1 - a.getSize).toNat).map
          (fun r => r.toAction ms us) ∧
    ((a.getSize + reqs.length ≤ a.queueSize - 1) →
      (a.runLaterReqs reqs ms us).2.1 = List.replicate reqs.length true) := by
  intro reqs
  induction reqs with
  | nil =>
    intro a hwf hov
    refine ⟨hwf, rfl, hov, rfl, by simp [Actions.runLaterReqs], fun h => rfl⟩
  | cons r rs ih =>
    intro a hwf hov
    have hq := hwf.qpos
    have hg0 := a.getSize_nonneg hwf
    have hglt := a.getSize_lt hwf
    rw [Actions.runLaterReqs_cons]
    rcases lt_or_eq_of_le (by omega : a.getSize <= a.queueSize - 1) with hroom | hfull
    · obtain ⟨hres, hev, hwf2, hgs2, hpend2, hqs2, hov2⟩ :=
        a.runLater_spec_success (r.toAction ms us) hwf hroom
      obtain ⟨ihwf, ihqs, ihov, ihev, ihpend, ihres⟩ :=
        ih (a.runLater (r.toAction ms us)).1 hwf2 (by rw [hov2, hov])
      refine ⟨ihwf, by rw [ihqs, hqs2], ihov, ?_, ?_, ?_⟩
      · show (a.runLater (r.toAction ms us)).2.2
            ++ ((a.runLater (r.toAction ms us)).1.runLaterReqs rs ms us).2.2 = []
        rw [hev, ihev]
        rfl
      · show ((a.runLater (r.toAction ms us)).1.runLaterReqs rs ms us).1.pending
            = a.pending ++ List.map (fun r => r.toAction ms us)
                (List.take (a.queueSize - 1 - a.getSize).toNat (r :: rs))
        rw [ihpend, hpend2, hgs2, hqs2]
        have e : (a.queueSize - 1 - a.getSize).toNat
            = (a.queueSize - 1 - (a.getSize + 1)).toNat + 1 := by omega
        rw [e, List.take_succ_cons, List.map_cons]
        simp
      · intro h
        show (a.runLater (r.toAction ms us)).2.1
            :: ((a.runLater (r.toAction ms us)).1.runLaterReqs rs ms us).2.1
            = List.replicate (r :: rs).length true
        rw [List.length_cons, List.replicate_succ, hres]
        congr 1
        apply ihres
        rw [hgs2, hqs2]
        simp only [List.length_cons] at h
        push_cast at h ⊢
        omega
    · have hf := a.full_of_size hwf hfull
      have hfeq := a.runLater_eq_full (r.toAction ms us) hf hov
      rw [hfeq]
      dsimp only
      obtain ⟨ihwf, ihqs, ihov, ihev, ihpend, ihres⟩ := ih a hwf hov
      refine ⟨ihwf, ihqs, ihov, by rw [ihev]; rfl, ?_, ?_⟩
      · rw [ihpend]
        have e : (a.queueSize - 1 - a.getSize).toNat = 0 := by omega
        rw [e]
        simp
      · intro h
        exfalso
        simp only [List.length_cons] at h
        push_cast at h
        omega

/-! The main loop pass.  `loopAux` is analysed by peeling the not-yet-due
prefix of the pending list: each such entry is removed from the front and
re-inserted at the back, preserving the queue size, so the loop counter
check `i < getSize()` sees a constant bound. -/

theorem Actions.loopAux_succ (eff : CallEvent → List SchedReq) (ms us : Nat)
    (fuel : Nat) (i : Int) (a : Actions) (buf : Action) :
    Actions.loopAux eff ms us (fuel + 1) i a buf
      = if i < a.getSize then
          (if dueTest ((a.remove buf).2.2.clockNow ms us) (a.remove buf).2.2 then
            (((a.remove buf).1.runLaterReqs
                ((a.remove buf).2.2.callback.call.flatMap eff) ms us).1, true,
              (a.remove buf).2.2.callback.call
                ++ ((a.remove buf).1.runLaterReqs
                     ((a.remove buf).2.2.callback.call.flatMap eff) ms us).2.2)
          else
            Actions.loopAux eff ms us fuel (i + 1)
              ((a.remove buf).1.runLater (a.remove buf).2.2).1 (a.remove buf).2.2)
        else (a, false, []) := rfl

theorem Actions.getSize_pendlen (a : Actions) (hwf : a.WF) :
    a.getSize = (a.pending.length : Int) := by
  rw [a.pending_length, a.getSize_toNat hwf]

theorem Actions.loopAux_nodue (eff : CallEvent → List SchedReq) (ms us : Nat) :
    ∀ (rest done : List Action) (fuel : Nat) (a : Actions) (buf : Action),
    a.WF →
    a.pending = rest ++ done →
    (∀ x ∈ rest, dueTest (x.clockNow ms us) x = false) →
    rest.length < fuel →
    ∃ a2 : Actions,
      Actions.loopAux eff ms us fuel ((done.length : Int)) a buf = (a2, false, []) ∧
      a2.WF ∧ a2.queueSize = a.queueSize ∧
      a2.overflowCallback = a.overflowCallback ∧
      a2.pending = done ++ rest := by
  intro rest
  induction rest with
  | nil =>
    intro done fuel a buf hwf hp hnd hfuel
    obtain ⟨fuel, rfl⟩ : ∃ f, fuel = f + 1 := ⟨fuel - 1, by omega⟩
    rw [Actions.loopAux_succ]
    rw [if_neg (by rw [a.getSize_pendlen hwf, hp]; simp)]
    exact ⟨a, rfl, hwf, rfl, rfl, by simpa using hp⟩
  | cons x xs ih =>
    intro done fuel a buf hwf hp hnd hfuel
    obtain ⟨fuel, rfl⟩ : ∃ f, fuel = f + 1 := ⟨fuel - 1, by omega⟩
    have hq := hwf.qpos
    have hg0 := a.getSize_nonneg hwf
    have hglt := a.getSize_lt hwf
    have hlt : ((done.length : Int)) < a.getSize := by
      rw [a.getSize_pendlen hwf, hp]
      simp
      omega
    have hne : ¬ a.tail = a.head := by
      intro h
      have := (a.empty_iff hwf).mp h
      omega
    have hrp := a.remove_tail_pending hwf hne
    rw [hp] at hrp
    simp only [List.cons_append] at hrp
    have hx : x = a.queue a.tail := (List.cons.injEq _ _ _ _ ▸ hrp).1
    have hbp : ({ a with tail := a.nextSlot a.tail } : Actions).pending = xs ++ done :=
      ((List.cons.injEq _ _ _ _ ▸ hrp).2).symm
    have hbwf := a.remove_tail_wf hwf
    have hbgs := a.remove_tail_getSize hwf hne
    have hbroom : ({ a with tail := a.nextSlot a.tail } : Actions).getSize
        < ({ a with tail := a.nextSlot a.tail } : Actions).queueSize - 1 := by
      rw [hbgs]
      show a.getSize - 1 < a.queueSize - 1
      omega
    obtain ⟨hres, hev, hcwf, hcgs, hcpend, hcqs, hcov⟩ :=
      Actions.runLater_spec_success _ (a.queue a.tail) hbwf hbroom
    rw [Actions.loopAux_succ, if_pos hlt, a.remove_eq buf hne]
    dsimp only
    rw [if_neg (by rw [← hx]; rw [hnd x (by simp)]; simp)]
    have hcp2 : (({ a with tail := a.nextSlot a.tail } : Actions).runLater
        (a.queue a.tail)).1.pending = xs ++ (done ++ [x]) := by
      rw [hcpend, hbp, hx]
      simp
    obtain ⟨a2, heq, h2wf, h2qs, h2ov, h2p⟩ :=
      ih (done ++ [x]) fuel
        ((({ a with tail := a.nextSlot a.tail } : Actions).runLater (a.queue a.tail)).1)
        (a.queue a.tail) hcwf hcp2 (fun y hy => hnd y (by simp [hy])) (by simpa using hfuel)
    have hi : (((done ++ [x]).length : Nat) : Int) = ((done.length : Int)) + 1 := by
      simp
    rw [hi] at heq
    refine ⟨a2, heq, h2wf, ?_, ?_, ?_⟩
    · rw [h2qs, hcqs]
    · rw [h2ov, hcov]
    · rw [h2p]
      simp

theorem Actions.loopAux_due (eff : CallEvent → List SchedReq) (ms us : Nat) :
    ∀ (nd : List Action) (done : List Action) (d : Action) (rest : List Action)
      (fuel : Nat) (a : Actions) (buf : Action),
    a.WF →
    a.pending = nd ++ (d :: rest) ++ done →
    (∀ x ∈ nd, dueTest (x.clockNow ms us) x = false) →
    dueTest (d.clockNow ms us) d = true →
    nd.length < fuel →
    ∃ amid : Actions,
      amid.WF ∧ amid.overflowCallback = a.overflowCallback ∧
      amid.queueSize = a.queueSize ∧
      amid.pending = rest ++ done ++ nd ∧
      amid.getSize = a.getSize - 1 ∧
      Actions.loopAux eff ms us fuel ((done.length : Int)) a buf
        = ((amid.runLaterReqs (d.callback.call.flatMap eff) ms us).1, true,
           d.callback.call
             ++ (amid.runLaterReqs (d.callback.call.flatMap eff) ms us).2.2) := by
  intro nd
  induction nd with
  | nil =>
    intro done d rest fuel a buf hwf hp hnd hdue hfuel
    obtain ⟨fuel, rfl⟩ : ∃ f, fuel = f + 1 := ⟨fuel - 1, by omega⟩
    simp only [List.nil_append] at hp
    have hq := hwf.qpos
    have hg0 := a.getSize_nonneg hwf
    have hlt : ((done.length : Int)) < a.getSize := by
      rw [a.getSize_pendlen hwf, hp]
      simp
      omega
    have hne : ¬ a.tail = a.head := by
      intro h
      have := (a.empty_iff hwf).mp h
      omega
    have hrp := a.remove_tail_pending hwf hne
    rw [hp] at hrp
    simp only [List.cons_append] at hrp
    have hd : d = a.queue a.tail := (List.cons.injEq _ _ _ _ ▸ hrp).1
    have hbp : ({ a with tail := a.nextSlot a.tail } : Actions).pending = rest ++ done :=
      ((List.cons.injEq _ _ _ _ ▸ hrp).2).symm
    refine ⟨{ a with tail := a.nextSlot a.tail }, a.remove_tail_wf hwf, rfl, rfl,
      by rw [hbp]; simp, a.remove_tail_getSize hwf hne, ?_⟩
    rw [Actions.loopAux_succ, if_pos hlt, a.remove_eq buf hne]
    dsimp only
    rw [if_pos (by rw [← hd]; exact hdue), ← hd]
  | cons x xs ih =>
    intro done d rest fuel a buf hwf hp hnd hdue hfuel
    obtain ⟨fuel, rfl⟩ : ∃ f, fuel = f + 1 := ⟨fuel - 1, by omega⟩
    have hq := hwf.qpos
    have hg0 := a.getSize_nonneg hwf
    have hglt := a.getSize_lt hwf
    have hlt : ((done.length : Int)) < a.getSize := by
      rw [a.getSize_pendlen hwf, hp]
      simp
      omega
    have hne : ¬ a.tail = a.head := by
      intro h
      have := (a.empty_iff hwf).mp h
      omega
    have hrp := a.remove_tail_pending hwf hne
    rw [hp] at hrp
    simp only [List.cons_append] at hrp
    have hx : x = a.queue a.tail := (List.cons.injEq _ _ _ _ ▸ hrp).1
    have hbp : ({ a with tail := a.nextSlot a.tail } : Actions).pending
        = xs ++ (d :: rest) ++ done := by
      have := ((List.cons.injEq _ _ _ _ ▸ hrp).2).symm
      rw [this]
    have hbwf := a.remove_tail_wf hwf
    have hbgs := a.remove_tail_getSize hwf hne
    have hbroom : ({ a with tail := a.nextSlot a.tail } : Actions).getSize
        < ({ a with tail := a.nextSlot a.tail } : Actions).queueSize - 1 := by
      rw [hbgs]
      show a.getSize - 1 < a.queueSize - 1
      omega
    obtain ⟨hres, hev, hcwf, hcgs, hcpend, hcqs, hcov⟩ :=
      Actions.runLater_spec_success _ (a.queue a.tail) hbwf hbroom
    rw [Actions.loopAux_succ, if_pos hlt, a.remove_eq buf hne]
    dsimp only
    rw [if_neg (by rw [← hx]; rw [hnd x (by simp)]; simp)]
    have hcp2 : (({ a with tail := a.nextSlot a.tail } : Actions).runLater
        (a.queue a.tail)).1.pending = xs ++ (d :: rest) ++ (done ++ [x]) := by
      rw [hcpend, hbp, hx]
      simp
    obtain ⟨amid, hmwf, hmov, hmqs, hmp, hmgs, heq⟩ :=
      ih (done ++ [x]) d rest fuel
        ((({ a with tail := a.nextSlot a.tail } : Actions).runLater (a.queue a.tail)).1)
        (a.queue a.tail) hcwf hcp2 (fun y hy => hnd y (by simp [hy])) hdue
        (by simpa using hfuel)
    have hi : (((done ++ [x]).length : Nat) : Int) = ((done.length : Int)) + 1 := by
      simp
    rw [hi] at heq
    refine ⟨amid, hmwf, ?_, ?_, ?_, ?_, heq⟩
    · rw [hmov, hcov]
    · rw [hmqs, hcqs]
    · rw [hmp]
      simp
    · rw [hmgs, hcgs, hbgs]
      ring_nf

/-! Preservation facts that hold on arbitrary states (no well-formedness
needed), used to propagate invariants along reachable states. -/

theorem Actions.runLater_wf (a : Actions) (act : Action) (hwf : a.WF) :
    (a.runLater act).1.WF := by
  unfold Actions.runLater
  split
  · exact a.insert_head_wf act hwf
  · split <;> exact hwf

theorem Actions.remove_wf (a : Actions) (buf : Action) (hwf : a.WF) :
    (a.remove buf).1.WF := by
  unfold Actions.remove
  split
  · exact a.remove_tail_wf hwf
  · exact hwf

theorem Actions.runLaterReqs_preserve (ms us : Nat) :
    ∀ (reqs : List SchedReq) (a : Actions),
    (a.runLaterReqs reqs ms us).1.overflowCallback = a.overflowCallback ∧
    (a.runLaterReqs reqs ms us).1.queueSize = a.queueSize ∧
    (a.WF → (a.runLaterReqs reqs ms us).1.WF) := by
  intro reqs
  induction reqs with
  | nil => exact fun a => ⟨rfl, rfl, fun h => h⟩
  | cons r rs ih =>
    intro a
    rw [Actions.runLaterReqs_cons]
    obtain ⟨ih1, ih2, ih3⟩ := ih (a.runLater (r.toAction ms us)).1
    obtain ⟨p1, p2⟩ := a.runLater_preserve (r.toAction ms us)
    exact ⟨by rw [ih1, p1], by rw [ih2, p2],
      fun h => ih3 (a.runLater_wf _ h)⟩

theorem Actions.loopAux_preserve (eff : CallEvent → List SchedReq) (ms us : Nat) :
    ∀ (fuel : Nat) (i : Int) (a : Actions) (buf : Action),
    (Actions.loopAux eff ms us fuel i a buf).1.overflowCallback = a.overflowCallback ∧
    (Actions.loopAux eff ms us fuel i a buf).1.queueSize = a.queueSize ∧
    (a.WF → (Actions.loopAux eff ms us fuel i a buf).1.WF) := by
  intro fuel
  induction fuel with
  | zero => exact fun i a buf => ⟨rfl, rfl, fun h => h⟩
  | succ n ih =>
    intro i a buf
    rw [Actions.loopAux_succ]
    split
    · split
      · obtain ⟨q1, q2, q3⟩ := Actions.runLaterReqs_preserve ms us
          ((a.remove buf).2.2.callback.call.flatMap eff) (a.remove buf).1
        obtain ⟨r1, r2, _, _⟩ := a.remove_preserve buf
        exact ⟨by rw [q1, r1], by rw [q2, r2], fun h => q3 (a.remove_wf buf h)⟩
      · obtain ⟨l1, l2, l3⟩ := ih (i + 1) ((a.remove buf).1.runLater (a.remove buf).2.2).1
          (a.remove buf).2.2
        obtain ⟨p1, p2⟩ := (a.remove buf).1.runLater_preserve (a.remove buf).2.2
        obtain ⟨r1, r2, _, _⟩ := a.remove_preserve buf
        exact ⟨by rw [l1, p1, r1], by rw [l2, p2, r2],
          fun h => l3 ((a.remove buf).1.runLater_wf _ (a.remove_wf buf h))⟩
    · exact ⟨rfl, rfl, fun h => h⟩

theorem Actions.loop_preserve (a : Actions) (eff : CallEvent → List SchedReq) (ms us : Nat) :
    (a.loop eff ms us).1.overflowCallback = a.overflowCallback ∧
    (a.loop eff ms us).1.queueSize = a.queueSize ∧
    (a.WF → (a.loop eff ms us).1.WF) :=
  Actions.loopAux_preserve eff ms us (a.getSize.toNat + 1) 0 a {}

/-- Invariants along every reachable state: the queue size is fixed at
construction to `size + 1`, the overflow pointer stays null (nothing ever
allocates it, and `setOverflowCallback` on a null pointer does not
complete), and for a non-negative requested size the state stays
well-formed. -/
theorem Actions.reaches_inv (c : Int) (a : Actions)
    (h : Actions.Reaches (Actions.construct c) a) :
    a.queueSize = c + 1 ∧ a.overflowCallback = none ∧ (0 ≤ c → a.WF) := by
  induction h with
  | refl =>
    refine ⟨rfl, rfl, fun hc => ?_⟩
    exact ⟨by simp [Actions.construct]; omega, le_refl _, by simp [Actions.construct]; omega,
      le_refl _, by simp [Actions.construct]; omega⟩
  | runLater act _ ih =>
    obtain ⟨h1, h2, h3⟩ := ih
    obtain ⟨p1, p2⟩ := Actions.runLater_preserve _ act
    exact ⟨by rw [p2, h1], by rw [p1, h2], fun hc => Actions.runLater_wf _ act (h3 hc)⟩
  | remove buf _ ih =>
    obtain ⟨h1, h2, h3⟩ := ih
    obtain ⟨r1, r2, _, _⟩ := Actions.remove_preserve _ buf
    exact ⟨by rw [r2, h1], by rw [r1, h2], fun hc => Actions.remove_wf _ buf (h3 hc)⟩
  | loop eff ms us _ ih =>
    obtain ⟨h1, h2, h3⟩ := ih
    obtain ⟨l1, l2, l3⟩ := Actions.loop_preserve _ eff ms us
    exact ⟨by rw [l2, h1], by rw [l1, h2], fun hc => l3 (h3 hc)⟩
  | setOverflow f _ hset ih =>
    obtain ⟨h1, h2, h3⟩ := ih
    rw [Actions.setOverflowCallback, h2] at hset
    exact absurd hset (by simp)

/-! Whole-pass wrappers for `Actions::loop`. -/

/-- A `loop()` call on a well-formed state none of whose pending actions is
due: it returns false, invokes nothing, and leaves the pending list (tasks,
order, timestamps) unchanged. -/
theorem Actions.loop_nodue (a : Actions) (eff : CallEvent → List SchedReq) (ms us : Nat)
    (hwf : a.WF)
    (hnd : ∀ x ∈ a.pending, dueTest (x.clockNow ms us) x = false) :
    ∃ a2 : Actions, a.loop eff ms us = (a2, false, []) ∧ a2.WF ∧
      a2.queueSize = a.queueSize ∧ a2.overflowCallback = a.overflowCallback ∧
      a2.pending = a.pending := by
  obtain ⟨a2, heq, hwf2, hqs2, hov2, hp2⟩ :=
    Actions.loopAux_nodue eff ms us a.pending [] (a.getSize.toNat + 1) a {} hwf
      (by simp) hnd (by rw [a.pending_length]; omega)
  have hz : ((([] : List Action).length : Nat) : Int) = 0 := by simp
  rw [hz] at heq
  exact ⟨a2, heq, hwf2, hqs2, hov2, by rw [hp2]; simp⟩

/-- A `loop()` call on a well-formed state whose pending list splits as a
not-yet-due prefix `nd`, a first due entry `d`, and a remainder `rest`:
`d`'s callable is invoked, the call returns true, and the surviving entries
are `rest ++ nd` followed by whatever re-entrant requests of the callback
fit in the queue. -/
theorem Actions.loop_due (a : Actions) (eff : CallEvent → List SchedReq) (ms us : Nat)
    (nd : List Action) (d : Action) (rest : List Action) (hwf : a.WF)
    (hp : a.pending = nd ++ (d :: rest))
    (hnd : ∀ x ∈ nd, dueTest (x.clockNow ms us) x = false)
    (hdue : dueTest (d.clockNow ms us) d = true) :
    ∃ amid : Actions,
      amid.WF ∧ amid.overflowCallback = a.overflowCallback ∧
      amid.queueSize = a.queueSize ∧
      amid.pending = rest ++ nd ∧
      amid.getSize = a.getSize - 1 ∧
      a.loop eff ms us
        = ((amid.runLaterReqs (d.callback.call.flatMap eff) ms us).1, true,
           d.callback.call
             ++ (amid.runLaterReqs (d.callback.call.flatMap eff) ms us).2.2) := by
  have hfuel : nd.length < a.getSize.toNat + 1 := by
    have := a.pending_length
    rw [hp] at this
    simp at this
    omega
  obtain ⟨amid, hmwf, hmov, hmqs, hmp, hmgs, heq⟩ :=
    Actions.loopAux_due eff ms us nd [] d rest (a.getSize.toNat + 1) a {} hwf
      (by rw [hp]; simp) hnd hdue hfuel
  have hz : ((([] : List Action).length : Nat) : Int) = 0 := by simp
  rw [hz] at heq
  exact ⟨amid, hmwf, hmov, hmqs, by rw [hmp]; simp, hmgs, heq⟩

/-! Event bounds and result shapes. -/

theorem Actions.runLaterReqs_events_none (ms us : Nat) :
    ∀ (reqs : List SchedReq) (a : Actions), a.overflowCallback = none →
    (a.runLaterReqs reqs ms us).2.2 = [] := by
  intro reqs
  induction reqs with
  | nil => exact fun a hov => rfl
  | cons r rs ih =>
    intro a hov
    rw [Actions.runLaterReqs_cons]
    dsimp only
    rw [a.runLater_events_none _ hov,
      ih _ (by rw [(a.runLater_preserve (r.toAction ms us)).1, hov])]
    rfl

theorem Actions.loopAux_events (eff : CallEvent → List SchedReq) (ms us : Nat) :
    ∀ (fuel : Nat) (i : Int) (a : Actions) (buf : Action), a.overflowCallback = none →
    ((Actions.loopAux eff ms us fuel i a buf).2.2).length ≤ 1 := by
  intro fuel
  induction fuel with
  | succ n ih =>
    intro i a buf hov
    rw [Actions.loopAux_succ]
    split
    · split
      · dsimp only
        rw [Actions.runLaterReqs_events_none ms us _ _
          (by rw [(a.remove_preserve buf).1, hov])]
        rw [List.append_nil]
        exact Callback.call_length _
      · exact ih _ _ _
          (by rw [((a.remove buf).1.runLater_preserve (a.remove buf).2.2).1,
                (a.remove_preserve buf).1, hov])
    · simp
  | zero =>
    intro i a buf hov
    simp [Actions.loopAux]

/-- The boolean results of a run of re-entrant `runLater` calls: as many
`true`s as there are free usable slots, then `false`s once the queue is
full. -/
theorem Actions.runLaterReqs_results (ms us : Nat) :
    ∀ (reqs : List SchedReq) (a : Actions), a.WF → a.overflowCallback = none →
    (a.runLaterReqs reqs ms us).2.1
      = List.replicate (min reqs.length (a.queueSize - 1 - a.getSize).toNat) true
        ++ List.replicate (reqs.length - (a.queueSize - 1 - a.getSize).toNat) false := by
  intro reqs
  induction reqs with
  | nil =>
    intro a hwf hov
    simp [Actions.runLaterReqs]
  | cons r rs ih =>
    intro a hwf hov
    have hq := hwf.qpos
    have hg0 := a.getSize_nonneg hwf
    have hglt := a.getSize_lt hwf
    rw [Actions.runLaterReqs_cons]
    dsimp only
    rcases lt_or_eq_of_le (by omega : a.getSize <= a.queueSize - 1) with hroom | hfull
    · obtain ⟨hres, hev, hwf2, hgs2, hpend2, hqs2, hov2⟩ :=
        a.runLater_spec_success (r.toAction ms us) hwf hroom
      rw [hres, ih _ hwf2 (by rw [hov2, hov]), hgs2, hqs2]
      have e1 : min (r :: rs).length (a.queueSize - 1 - a.getSize).toNat
          = min rs.length (a.queueSize - 1 - (a.getSize + 1)).toNat + 1 := by
        simp only [List.length_cons]
        omega
      have e2 : (r :: rs).length - (a.queueSize - 1 - a.getSize).toNat
          = rs.length - (a.queueSize - 1 - (a.getSize + 1)).toNat := by
        simp only [List.length_cons]
        omega
      rw [e1, e2, List.replicate_succ, List.cons_append]
    · have hf := a.full_of_size hwf hfull
      rw [a.runLater_eq_full (r.toAction ms us) hf hov]
      dsimp only
      rw [ih a hwf hov]
      have e0 : (a.queueSize - 1 - a.getSize).toNat = 0 := by omega
      rw [e0]
      simp [List.replicate_succ]

/-- Splitting a list at its first element satisfying a boolean predicate. -/
theorem firstTrueSplit {α : Type} (q : α → Bool) :
    ∀ l : List α, (∀ x ∈ l, q x = false) ∨
      ∃ nd d rest, l = nd ++ (d :: rest) ∧ (∀ x ∈ nd, q x = false) ∧ q d = true := by
  intro l
  induction l with
  | nil => exact Or.inl (by simp)
  | cons x xs ih =>
    rcases hx : q x with hf | ht
    · rcases ih with hall | ⟨nd, d, rest, hsplit, hnd, hd⟩
      · exact Or.inl (by
          intro y hy
          rcases List.mem_cons.mp hy with h1 | h2
          · rw [h1, hx]
          · exact hall y h2)
      · refine Or.inr ⟨x :: nd, d, rest, by rw [hsplit]; rfl, ?_, hd⟩
        intro y hy
        rcases List.mem_cons.mp hy with h1 | h2
        · rw [h1, hx]
        · exact hnd y h2
    · exact Or.inr ⟨[], x, xs, rfl, by simp, hx⟩

/-! Concrete example states used by the witnesses below. -/

/-- A zero-delay millisecond task wrapping free function 1, registered at
clock reading 0. -/
def exA : Action := Action.create (Callback.ofFunction 1) 0 false 0 0

/-- A zero-delay millisecond task wrapping free function 2, registered at
clock reading 0. -/
def exB : Action := Action.create (Callback.ofFunction 2) 0 false 0 0

/-- Capacity-2 scheduler holding tasks `exA` then `exB`. -/
def exS2 : Actions :=
  (((Actions.construct 2).runLaterF 1 0 false 0 0).1.runLaterF 2 0 false 0 0).1

/-- Capacity-3 scheduler holding three zero-delay tasks (functions 1, 2, 3)
registered in that order. -/
def exS3 : Actions :=
  ((((Actions.construct 3).runLaterF 1 0 false 0 0).1.runLaterF 2 0 false 0 0).1.runLaterF
    3 0 false 0 0).1

/-- Capacity-2 scheduler holding one task with delay 1000, registered at
clock reading 0. -/
def exSlow : Actions := ((Actions.construct 2).runLaterF 1 1000 false 0 0).1

/-- Capacity-2 scheduler holding only the zero-delay task `exA`. -/
def exSA : Actions := ((Actions.construct 2).runLaterF 1 0 false 0 0).1

/-- An effect map under which the invoked callback re-entrantly schedules
one request: free function 9 with delay 50. -/
def exEff : CallEvent → List SchedReq :=
  fun _ => [{ callback := Callback.ofFunction 9, delay := 50, useMicros := false }]

/-- The effect map of a callback that performs no re-entrant scheduling. -/
def noEff : CallEvent → List SchedReq := fun _ => []

/-- C1: for every scheduler state (with the overflow pointer null, as it is
in every reachable state) and every call to `Actions::loop`, at most one
stored callable is invoked: as soon as a due action's callback runs, the
pass breaks without dispatching any further entry, so the invocation list
of one call has length at most one. -/
theorem C1_at_most_one_dispatch_per_loop (a : Actions) (eff : CallEvent → List SchedReq)
    (ms us : Nat) (hov : a.overflowCallback = none) :
    ((a.loop eff ms us).2.2).length ≤ 1 :=
  Actions.loopAux_events eff ms us (a.getSize.toNat + 1) 0 a {} hov

/-- Witness for C1: three zero-delay tasks are all due at clock 1; one
`loop` call invokes only the oldest, and draining all three takes three
calls, after which the queue is empty. -/
theorem C1_witness :
    exS3.overflowCallback = none ∧
    ((exS3.loop noEff 1 1).2.2).length ≤ 1 ∧
    (exS3.loop noEff 1 1).2.2 = [CallEvent.function 1] ∧
    ((exS3.loop noEff 1 1).1.loop noEff 1 1).2.2 = [CallEvent.function 2] ∧
    (((exS3.loop noEff 1 1).1.loop noEff 1 1).1.loop noEff 1 1).2.2
      = [CallEvent.function 3] ∧
    (((exS3.loop noEff 1 1).1.loop noEff 1 1).1.loop noEff 1 1).1.pending = [] :=
  ⟨by decide, C1_at_most_one_dispatch_per_loop exS3 noEff 1 1 (by decide),
    by decide, by decide, by decide, by decide⟩

/-- C2: the source declares `Actions::loop()` as `void`, although the
repository README documents a boolean return (true when an action was
called, false otherwise) and builds a priority pattern on it.  The return
value modelled from that documentation behaves as claimed: a pass that
dispatches reports true together with the single invocation, and a pass
with no due task reports false and invokes nothing. -/
theorem C2_loop_return_value :
    (exSA.loop noEff 1 1).2.1 = true ∧
    (exSA.loop noEff 1 1).2.2 = [CallEvent.function 1] ∧
    ((exSA.loop noEff 1 1).1.loop noEff 1 1).2.1 = false ∧
    ((exSA.loop noEff 1 1).1.loop noEff 1 1).2.2 = [] := by
  exact ⟨by decide, by decide, by decide, by decide⟩

/-- C3: dispatch is strict FIFO in registration order: when the pending
list splits as a not-yet-due prefix `nd`, a first due entry `d`, and a
remainder, the pass examines entries oldest-first and invokes exactly the
earliest-registered due task `d`. -/
theorem C3_fifo_oldest_due_first (a : Actions) (eff : CallEvent → List SchedReq)
    (ms us : Nat) (nd : List Action) (d : Action) (rest : List Action) (hwf : a.WF)
    (hov : a.overflowCallback = none)
    (hp : a.pending = nd ++ (d :: rest))
    (hnd : ∀ x ∈ nd, dueTest (x.clockNow ms us) x = false)
    (hdue : dueTest (d.clockNow ms us) d = true) :
    (a.loop eff ms us).2.1 = true ∧ (a.loop eff ms us).2.2 = d.callback.call := by
  obtain ⟨amid, hmwf, hmov, hmqs, hmp, hmgs, heq⟩ :=
    a.loop_due eff ms us nd d rest hwf hp hnd hdue
  rw [heq]
  refine ⟨rfl, ?_⟩
  show d.callback.call ++ _ = d.callback.call
  rw [Actions.runLaterReqs_events_none ms us _ _ (by rw [hmov, hov]), List.append_nil]

/-- Witness for C3: tasks A (function 1) then B (function 2), both delay 0,
scheduled in that order on an empty queue; two consecutive `loop` calls
dispatch A first, then B. -/
theorem C3_witness :
    (exS2.loop noEff 1 1).2.2 = [CallEvent.function 1] ∧
    ((exS2.loop noEff 1 1).1.loop noEff 1 1).2.2 = [CallEvent.function 2] := by
  have h := C3_fifo_oldest_due_first exS2 noEff 1 1 [] exA [exB]
    ⟨by decide, by decide, by decide, by decide, by decide⟩ (by decide)
    (by decide) (by simp) (by decide)
  exact ⟨by rw [h.2]; decide, by decide⟩

/-- C4: the due test of `Actions::loop` compares the unsigned 32-bit
modular difference `now - created` strictly against the delay: for a task
registered at absolute time `T` and polled `e < 2^32` ticks later, the test
fires exactly when `e > delay`, also across wraparound of the counter, and
with strict `>` a zero-delay task does not fire at zero elapsed time. -/
theorem C4_due_test_modular_strict (cb : Callback) (um : Bool) (T e d : Nat)
    (he : e < U) (hd : d < U) :
    dueTest ((T + e) % U) (Action.create cb d um (T % U) (T % U)) = true ↔ d < e := by
  simp only [dueTest, Action.create, usub, decide_eq_true_eq]
  cases um <;> simp only [Bool.false_eq_true, if_true, if_false] <;>
    (unfold U at he hd ⊢; omega)

/-- Witness for C4: a task with delay 3 registered 3 ticks before the
counter wraps fires when polled 5 ticks later (the clock has wrapped to 2),
and the strict comparison makes a zero-delay task not fire at zero elapsed
time. -/
theorem C4_witness :
    dueTest ((4294967293 + 5) % U)
      (Action.create (Callback.ofFunction 1) 3 false (4294967293 % U) (4294967293 % U))
      = true ∧
    dueTest ((100 + 0) % U)
      (Action.create (Callback.ofFunction 1) 0 false (100 % U) (100 % U)) = false :=
  ⟨(C4_due_test_modular_strict (Callback.ofFunction 1) false 4294967293 5 3
      (by decide) (by decide)).mpr (by decide), by decide⟩

/-- C5: contrary to the claim, the overflow handler can never run: the
constructor sets the `overflowCallback` pointer to NULL, nothing ever
allocates it, and `setOverflowCallback` writes through the null pointer
(undefined behaviour, modelled as `none`), so a rejected `runLater` on a
full queue returns false without invoking any handler. -/
theorem C5_overflow_handler_unreachable :
    (Actions.construct 1).setOverflowCallback 7 = none ∧
    (((Actions.construct 1).runLaterF 1 0 false 0 0).1.runLaterF 2 0 false 0 0).2.1
      = false ∧
    (((Actions.construct 1).runLaterF 1 0 false 0 0).1.runLaterF 2 0 false 0 0).2.2
      = [] := by
  exact ⟨rfl, by decide, by decide⟩

/-- C6: for capacity `k > 0`, starting from a freshly constructed empty
queue, exactly the first `k` schedule calls succeed and the `(k+1)`-th
fails; `k+1` backing slots are allocated but the number of pending tasks
never exceeds `k` in any reachable state. -/
theorem C6_capacity_exactly_k (k : Nat) (hk : 0 < k) (reqs : List SchedReq)
    (ms us : Nat) (hlen : reqs.length = k + 1) :
    ((Actions.construct (k : Int)).runLaterReqs reqs ms us).2.1
      = List.replicate k true ++ [false] ∧
    (Actions.construct (k : Int)).queueSize = (k : Int) + 1 ∧
    (∀ b : Actions, Actions.Reaches (Actions.construct (k : Int)) b
      → b.getSize ≤ (k : Int)) := by
  have hwf : (Actions.construct (k : Int)).WF :=
    ⟨by show (1 : Int) ≤ (k : Int) + 1; omega, le_refl 0,
     by show (0 : Int) < (k : Int) + 1; omega, le_refl 0,
     by show (0 : Int) < (k : Int) + 1; omega⟩
  have hg : (Actions.construct (k : Int)).getSize = 0 := rfl
  refine ⟨?_, rfl, ?_⟩
  · rw [Actions.runLaterReqs_results ms us reqs _ hwf rfl, hg, hlen]
    have e1 : min (k + 1) ((Actions.construct (k : Int)).queueSize - 1 - 0).toNat = k := by
      show min (k + 1) ((k : Int) + 1 - 1 - 0).toNat = k
      omega
    have e2 : (k + 1) - ((Actions.construct (k : Int)).queueSize - 1 - 0).toNat = 1 := by
      show (k + 1) - ((k : Int) + 1 - 1 - 0).toNat = 1
      omega
    rw [e1, e2]
    rfl
  · intro b hb
    obtain ⟨hqs, _, hbwf⟩ := Actions.reaches_inv (k : Int) b hb
    have := b.getSize_lt (hbwf (by positivity))
    omega

/-- Witness for C6: with capacity 2, three consecutive schedule calls
return true, true, false. -/
theorem C6_witness :
    ((Actions.construct ((2 : Nat) : Int)).runLaterReqs
      [{ callback := Callback.ofFunction 1, delay := 0, useMicros := false },
       { callback := Callback.ofFunction 2, delay := 0, useMicros := false },
       { callback := Callback.ofFunction 3, delay := 0, useMicros := false }] 0 0).2.1
      = [true, true, false] := by
  have h := (C6_capacity_exactly_k 2 (by omega)
    [{ callback := Callback.ofFunction 1, delay := 0, useMicros := false },
     { callback := Callback.ofFunction 2, delay := 0, useMicros := false },
     { callback := Callback.ofFunction 3, delay := 0, useMicros := false }] 0 0 rfl).1
  rw [h]
  decide

/-- C7: a scheduler constructed with requested size `c <= 0` never accepts
a task: in every subsequently reachable state, every public `runLater` call
returns false, regardless of callable, delay and clock arguments. -/
theorem C7_nonpositive_size_rejects_all (c : Int) (hc : c ≤ 0) (a : Actions)
    (h : Actions.Reaches (Actions.construct c) a)
    (f delay : Nat) (um : Bool) (ms us : Nat) :
    (a.runLaterF f delay um ms us).2.1 = false := by
  obtain ⟨hqs, _, _⟩ := Actions.reaches_inv c a h
  have hf : a.isFull = true := by
    unfold Actions.isFull
    rw [if_pos (by omega)]
  unfold Actions.runLaterF Actions.runLater
  rw [if_neg (by simp [hf])]
  split <;> rfl

/-- Witness for C7: a scheduler constructed with requested size -3 rejects
a schedule request. -/
theorem C7_witness : ((Actions.construct (-3)).runLaterF 7 123 false 9 9).2.1 = false :=
  C7_nonpositive_size_rejects_all (-3) (by omega) (Actions.construct (-3))
    (Actions.Reaches.refl (Actions.construct (-3))) 7 123 false 9 9

/-- C8: a `loop` pass on a well-formed state that reports no dispatch
leaves the pending list exactly as it was — same tasks, same `created` and
`delay` fields, same FIFO order — and invokes nothing. -/
theorem C8_no_dispatch_frame (a : Actions) (eff : CallEvent → List SchedReq)
    (ms us : Nat) (hwf : a.WF)
    (hran : (a.loop eff ms us).2.1 = false) :
    (a.loop eff ms us).1.pending = a.pending ∧ (a.loop eff ms us).2.2 = [] := by
  rcases firstTrueSplit (fun x => dueTest (x.clockNow ms us) x) a.pending with
    hall | ⟨nd, d, rest, hsplit, hnd, hdue⟩
  · obtain ⟨a2, heq, _, _, _, hp⟩ := a.loop_nodue eff ms us hwf hall
    rw [heq]
    exact ⟨hp, rfl⟩
  · obtain ⟨amid, _, _, _, _, _, heq⟩ := a.loop_due eff ms us nd d rest hwf hsplit hnd hdue
    rw [heq] at hran
    exact absurd hran (by simp)

/-- Witness for C8: a task with delay 1000 registered at clock 0 survives a
`loop` call at clock 1 untouched, with its original fields. -/
theorem C8_witness :
    (exSlow.loop noEff 1 1).2.1 = false ∧
    (exSlow.loop noEff 1 1).1.pending = exSlow.pending ∧
    exSlow.pending = [Action.create (Callback.ofFunction 1) 1000 false 0 0] :=
  ⟨by decide,
    (C8_no_dispatch_frame exSlow noEff 1 1
      ⟨by decide, by decide, by decide, by decide, by decide⟩ (by decide)).1,
    by decide⟩

/-- C9: a callback invoked from inside `loop` may call `runLater` on the
same instance: as many of its requests as capacity allows are appended to
the queue, and none of them is examined or dispatched by the pass currently
executing — the pass produces only the one due action's invocation. -/
theorem C9_reentrant_scheduling (a : Actions) (eff : CallEvent → List SchedReq)
    (ms us : Nat) (nd : List Action) (d : Action) (rest : List Action) (hwf : a.WF)
    (hov : a.overflowCallback = none)
    (hp : a.pending = nd ++ (d :: rest))
    (hnd : ∀ x ∈ nd, dueTest (x.clockNow ms us) x = false)
    (hdue : dueTest (d.clockNow ms us) d = true) :
    (a.loop eff ms us).2.2 = d.callback.call ∧
    (a.loop eff ms us).1.pending
      = (rest ++ nd)
        ++ ((d.callback.call.flatMap eff).take (a.queueSize - a.getSize).toNat).map
            (fun r => r.toAction ms us) := by
  obtain ⟨amid, hmwf, hmov, hmqs, hmp, hmgs, heq⟩ :=
    a.loop_due eff ms us nd d rest hwf hp hnd hdue
  have hmov2 : amid.overflowCallback = none := by rw [hmov, hov]
  obtain ⟨_, _, _, qev, qpend, _⟩ :=
    Actions.runLaterReqs_spec ms us (d.callback.call.flatMap eff) amid hmwf hmov2
  rw [heq]
  constructor
  · show d.callback.call ++ _ = d.callback.call
    rw [qev, List.append_nil]
  · show (amid.runLaterReqs (d.callback.call.flatMap eff) ms us).1.pending = _
    rw [qpend, hmp, hmqs, hmgs]
    have e : a.queueSize - 1 - (a.getSize - 1) = a.queueSize - a.getSize := by ring
    rw [e]

/-- Witness for C9: a due zero-delay task whose callback schedules function
9 with delay 50; the pass invokes only function 1, and the new task sits in
the queue afterwards, stamped with the current clock. -/
theorem C9_witness :
    (exSA.loop exEff 1 1).2.2 = [CallEvent.function 1] ∧
    (exSA.loop exEff 1 1).1.pending
      = [Action.create (Callback.ofFunction 9) 50 false 1 1] := by
  have h := C9_reentrant_scheduling exSA exEff 1 1 [] exA []
    ⟨by decide, by decide, by decide, by decide, by decide⟩ (by decide)
    (by decide) (by simp) (by decide)
  exact ⟨by rw [h.1]; decide, by rw [h.2]; decide⟩

/-- C10: for every scheduler constructed with a requested size `c >= 0`,
the `head` and `tail` indices stay inside `[0, c + 1)` — the `c + 1`
allocated backing slots — in every reachable state. -/
theorem C10_indices_bounded (c : Int) (hc : 0 ≤ c) (a : Actions)
    (h : Actions.Reaches (Actions.construct c) a) :
    0 ≤ a.head ∧ a.head < c + 1 ∧ 0 ≤ a.tail ∧ a.tail < c + 1 := by
  obtain ⟨hqs, _, hwf⟩ := Actions.reaches_inv c a h
  obtain ⟨_, h1, h2, h3, h4⟩ := hwf hc
  rw [hqs] at h2 h4
  exact ⟨h1, h2, h3, h4⟩

/-- Witness for C10: after one insertion into a capacity-1 scheduler, head
and tail are within the two backing slots. -/
theorem C10_witness :
    0 ≤ ((Actions.construct 1).runLater exA).1.head ∧
    ((Actions.construct 1).runLater exA).1.head < 1 + 1 ∧
    0 ≤ ((Actions.construct 1).runLater exA).1.tail ∧
    ((Actions.construct 1).runLater exA).1.tail < 1 + 1 :=
  C10_indices_bounded 1 (by omega) (((Actions.construct 1).runLater exA).1)
    (Actions.Reaches.runLater exA (Actions.Reaches.refl (Actions.construct 1)))

end Sched
